import Mathlib

/-!
Verification of the cpureport sampling/aggregation program (src/src/main.rs).

The Rust program polls `adb` for CPU and memory figures of one app, parses
the textual output into `f64` samples pushed onto two vectors, trims the
first sample of each vector, and reports sum/mean/max (memory converted
from KB to MB by dividing by 1024).

Samples are embedded as rationals (ℚ): every number the program handles is
produced by parsing a finite decimal literal, and the claims under test are
exact-arithmetic statements about those values.  The one place where IEEE
behaviour itself is the subject — the mean of an empty series dividing by
zero — is modelled by a small value type `FVal` distinguishing finite
results from NaN/infinite ones, with `fdiv` following IEEE-754 division.
Rust string primitives (`lines`, `split_whitespace`, `replace`,
`f64::from_str` on finite decimal literals, substring `contains`) are
modelled on `List Char`.
-/

namespace CpuReport

/-! ## Rust string primitives -/

/-- Split a character list at every separator recognised by `p`,
keeping empty groups (the semantics of Rust `split`). -/
def splitOnP (p : Char → Bool) : List Char → List (List Char)
  | [] => [[]]
  | a :: rest =>
    match splitOnP p rest with
    | [] => [[]]
    | grp :: grps => if p a then [] :: grp :: grps else (a :: grp) :: grps

/-- Drop a single trailing occurrence of `c`, if present. -/
def stripLastChar (c : Char) (l : List Char) : List Char :=
  if l.getLast? = some c then l.dropLast else l

/-- Rust `split_inclusive('\n')`: pieces keep their `'\n'` terminator and
an empty input yields no pieces. -/
def splitInclNl : List Char → List (List Char)
  | [] => []
  | c :: rest =>
    if c = '\n' then ['\n'] :: splitInclNl rest
    else
      match splitInclNl rest with
      | [] => [[c]]
      | grp :: grps => (c :: grp) :: grps

/-- The per-piece trimming of Rust `str::lines`: remove a trailing `'\n'`,
and then a `'\r'` only when it stood directly before that `'\n'`. -/
def lineTrim (l : List Char) : List Char :=
  if l.getLast? = some '\n' then stripLastChar '\r' l.dropLast else l

/-- Rust `str::lines`: `split_inclusive('\n')` with terminators (and a
`'\r'` before them) removed; the empty string yields no lines. -/
def rustLines (s : String) : List String :=
  (splitInclNl s.toList).map (fun l => String.mk (lineTrim l))

/-- Rust `str::split_whitespace`: maximal runs of non-whitespace characters. -/
def splitWS (s : String) : List String :=
  ((splitOnP Char.isWhitespace s.toList).filter (fun l => !l.isEmpty)).map String.mk

/-- Rust `.replace("%", "")`: removes every `'%'` character. -/
def removePercent (s : String) : String :=
  String.mk (s.toList.filter (fun c => c != '%'))

/-- `a == b` on lists, position by position, `a` a required leading segment. -/
def leadsWith : List Char → List Char → Bool
  | [], _ => true
  | _ :: _, [] => false
  | a :: xs, b :: ys => a == b && leadsWith xs ys

/-- Rust `str::contains` with a literal pattern: some suffix of the
haystack starts with the pattern. -/
def containsSub (pat : List Char) : List Char → Bool
  | [] => pat.isEmpty
  | c :: rest => leadsWith pat (c :: rest) || containsSub pat rest

/-! ## `f64::from_str` on finite decimal literals

Rust's `str::parse::<f64>()` accepts `[+-]? digits [. digits] [eE [+-] digits]`
(plus `inf`/`nan` forms, which never occur in the outputs at issue and are
treated as parse failures here).  The numeric value is represented exactly
in ℚ. -/

/-- Decimal value of a digit string. -/
def digitsVal (cs : List Char) : Nat :=
  cs.foldl (fun a c => a * 10 + (c.toNat - 48)) 0

/-- Split at the first separator recognised by `p`; `none` when absent. -/
def splitAtFirst (p : Char → Bool) : List Char → List Char × Option (List Char)
  | [] => ([], none)
  | c :: rest =>
    if p c then ([], some rest)
    else
      match splitAtFirst p rest with
      | (front, tailPart) => (c :: front, tailPart)

/-- Consume an optional leading sign. -/
def takeSign : List Char → Int × List Char
  | '+' :: rest => (1, rest)
  | '-' :: rest => (-1, rest)
  | cs => (1, cs)

/-- Parse the exponent following `e`/`E`: optional sign, then digits. -/
def parseExpPart (cs : List Char) : Option Int :=
  match takeSign cs with
  | (sg, ds) =>
    if !ds.isEmpty && ds.all Char.isDigit then some (sg * (digitsVal ds : Int))
    else none

/-- Rust `str::parse::<f64>()` on finite decimal literals, valued in ℚ. -/
def parseF64 (s : String) : Option ℚ :=
  match takeSign s.toList with
  | (sg, cs) =>
    match splitAtFirst (fun c => c == 'e' || c == 'E') cs with
    | (mant, expTail) =>
      match splitAtFirst (fun c => c == '.') mant with
      | (ip, fracTail) =>
        let fp := fracTail.getD []
        if !(ip ++ fp).isEmpty && (ip ++ fp).all Char.isDigit then
          let base : ℚ := (sg : ℚ) * (digitsVal (ip ++ fp) : ℚ) / (10 : ℚ) ^ fp.length
          match expTail with
          | none => some base
          | some e =>
            match parseExpPart e with
            | none => none
            | some k => some (base * (10 : ℚ) ^ k)
        else none

/-! ## The samplers (`get_cpu_data`, `get_mem_data`) -/

/-- One CPU sample from the first output line, as in `get_cpu_data`:
`cpu_line.split_whitespace().nth(8).unwrap_or("0").replace("%", "").parse().unwrap_or(0.0)`. -/
def cpuSample (line : String) : ℚ :=
  (parseF64 (removePercent ((splitWS line).getD 8 "0"))).getD 0

/-- The samples one `get_cpu_data` loop iteration appends for a given
command output: one sample from the first line if any line exists
(`if let Some(cpu_line) = top_result.lines().next()`), none otherwise. -/
def cpuIterSamples (output : String) : List ℚ :=
  match rustLines output with
  | [] => []
  | line :: _ => [cpuSample line]

/-- The marker test `line.contains("TOTAL PSS:")` in `get_mem_data`. -/
def lineHasMarker (line : String) : Bool :=
  containsSub ("TOTAL PSS:".toList) line.toList

/-- One memory sample from a marker line, as in `get_mem_data`:
`line.split_whitespace().collect::<Vec<&str>>().get(2).unwrap_or(&"0").parse().unwrap_or(0.0)`. -/
def memLineValue (line : String) : ℚ :=
  (parseF64 ((splitWS line).getD 2 "0")).getD 0

/-- The samples one `get_mem_data` loop iteration appends for a given
command output: the `for_each` over `mem_result.lines()` pushes one value
per line containing the marker. -/
def memSamples (output : String) : List ℚ :=
  (rustLines output).foldl
    (fun acc line => if lineHasMarker line then acc ++ [memLineValue line] else acc) []

/-! ## Trimming (`list.lock().unwrap().remove(0)`) -/

/-- `Vec::remove(0)` at the end of both samplers: on a non-empty vector it
removes and discards the first element; on an empty vector it panics
(modelled as `Except.error`). -/
def trimSeries (l : List ℚ) : Except String (List ℚ) :=
  match l with
  | [] => Except.error "removal index out of bounds"
  | _ :: rest => Except.ok rest

/-! ## Aggregation in `main` -/

/-- `data.iter().sum::<f64>()`. -/
def seriesSum (l : List ℚ) : ℚ := l.foldl (· + ·) 0

/-- `data.iter().max_by(|a, b| a.total_cmp(b)).unwrap_or(&0.0)`:
the largest element, or `0.0` for an empty series. -/
def seriesMax (l : List ℚ) : ℚ :=
  match l with
  | [] => 0
  | x :: xs => xs.foldl max x

/-- IEEE-style value of an `f64` division: finite, NaN, or a signed
infinity.  Only division can leave the finite range here, since every
sample is a finite parsed decimal. -/
inductive FVal where
  | finite (q : ℚ)
  | nan
  | inf (pos : Bool)
deriving DecidableEq

/-- Which `FVal`s are finite numbers. -/
def FVal.isFinite : FVal → Bool
  | finite _ => true
  | _ => false

/-- IEEE-754 division on finite operands: `0.0 / 0.0 = NaN`,
`a / 0.0 = ±inf` for `a ≠ 0`, exact quotient otherwise. -/
def fdiv (a b : ℚ) : FVal :=
  if b = 0 then (if a = 0 then FVal.nan else FVal.inf (decide (0 < a)))
  else FVal.finite (a / b)

/-- `cpu_average = cpu_sum / cpu_data.len() as f64`. -/
def cpuAverageOf (l : List ℚ) : FVal := fdiv (seriesSum l) (l.length : ℚ)

/-- `cpu_max` (no unit conversion for CPU). -/
def cpuMaxOf (l : List ℚ) : ℚ := seriesMax l

/-- `mem_average = mem_sum / (mem_data.len() as f64 * 1024.0)`. -/
def memAverageOf (l : List ℚ) : FVal := fdiv (seriesSum l) ((l.length : ℚ) * 1024)

/-- `mem_max = max … unwrap_or(&0.0) / 1024.0`. -/
def memMaxOf (l : List ℚ) : ℚ := seriesMax l / 1024

/-! ## Run setup in `main` -/

/-- The parsed command-line arguments (struct `Args`). -/
structure Args where
  device : Option String
  package : String
  time : Option Nat

/-- `let duration = args.time.unwrap_or(60)`. -/
def runDuration (a : Args) : Nat := a.time.getD 60

/-- `let end_time = SystemTime::now()…as_secs() + duration`, in epoch
seconds. -/
def endTimeOf (now : Nat) (a : Args) : Nat := now + runDuration a

/-- The deadlines handed to the two sampler threads.  `main` computes
`end_time` once and moves the same value into both closures. -/
structure RunSetup where
  cpuDeadline : Nat
  memDeadline : Nat

/-- The deadline wiring of `main`: one `end_time`, shared by both
samplers. -/
def mainSetup (now : Nat) (a : Args) : RunSetup :=
  let e := endTimeOf now a
  { cpuDeadline := e, memDeadline := e }

/-! ## A second reading of the CPU field rule, from the spec's wording

The spec describes the CPU rule as "strip a trailing `%` if present";
the source applies `.replace("%", "")`, which removes every `%`.  The
definition below follows the spec's wording so the two can be compared. -/

/-- Modelled from the spec: "take the 9th field (0-indexed 8th); strip a
trailing `%` if present; parse as a floating-point number; on any
failure, substitute 0.0". -/
def cpuSampleSpecRule (line : String) : ℚ :=
  (parseF64 (String.mk (stripLastChar '%' ((splitWS line).getD 8 "0").toList))).getD 0

/-! ## Theorems -/

/-- Claim C1: trimming removes exactly the chronologically first sample
from a series of size N ≥ 1, leaving its tail (size N − 1); but on a
series of size 0 the source's unguarded `remove(0)` panics instead of
yielding size 0, so the empty case fails rather than being a no-op. -/
theorem trim_removes_first_and_panics_on_empty :
    (∀ (x : ℚ) (xs : List ℚ), trimSeries (x :: xs) = Except.ok xs ∧
      xs.length + 1 = (x :: xs).length) ∧
    trimSeries ([] : List ℚ) = Except.error "removal index out of bounds" :=
  ⟨fun _ xs => ⟨rfl, (List.length_cons _ xs).symm⟩, rfl⟩

/-- Claim C7: on a series with zero samples, both mean computations divide
the (zero) sum by a zero denominator, producing NaN — a non-finite value. -/
theorem empty_series_mean_nonfinite :
    cpuAverageOf [] = FVal.nan ∧ memAverageOf [] = FVal.nan ∧
    (cpuAverageOf []).isFinite = false ∧ (memAverageOf []).isFinite = false := by
  have hc : cpuAverageOf [] = FVal.nan := by
    simp [cpuAverageOf, seriesSum, fdiv]
  have hm : memAverageOf [] = FVal.nan := by
    simp [memAverageOf, seriesSum, fdiv]
  exact ⟨hc, hm, by rw [hc]; rfl, by rw [hm]; rfl⟩

/-- Claim C9: on an empty series the reported maximum defaults to 0.0
(`unwrap_or(&0.0)`), and the memory maximum is 0.0 / 1024 = 0.0, rather
than failing. -/
theorem empty_series_max_zero :
    cpuMaxOf [] = 0 ∧ memMaxOf [] = 0 := by
  constructor
  · rfl
  · show seriesMax [] / 1024 = 0
    norm_num [seriesMax]

/-- Claim C8: the deadline is a single value `now + duration` (duration
defaulting to 60 seconds when `--time` is absent), computed once in `main`
and handed identically to both samplers. -/
theorem deadline_computed_once (now : Nat) (a : Args) :
    (mainSetup now a).cpuDeadline = (mainSetup now a).memDeadline ∧
    (mainSetup now a).cpuDeadline = now + a.time.getD 60 ∧
    (a.time = none → (mainSetup now a).cpuDeadline = now + 60) := by
  refine ⟨rfl, rfl, fun h => ?_⟩
  simp [mainSetup, endTimeOf, runDuration, h]

/-- Witness for C8: with `now = 1000` and no `--time` option, both
deadlines are 1060. -/
theorem deadline_computed_once_witness :
    (mainSetup 1000 { device := none, package := "com.example.app", time := none }).cpuDeadline
      = 1060 :=
  (deadline_computed_once 1000
    { device := none, package := "com.example.app", time := none }).2.2 rfl

/-- Claim C10: an iteration of the CPU sampler whose command output has no
lines appends no sample at all — the 0.0 substitution only applies once a
first line exists, in which case exactly one sample is appended. -/
theorem cpu_no_lines_no_sample (output : String) :
    (rustLines output = [] → cpuIterSamples output = []) ∧
    (∀ line rest, rustLines output = line :: rest →
      cpuIterSamples output = [cpuSample line]) := by
  constructor
  · intro h
    unfold cpuIterSamples
    rw [h]
  · intro line rest h
    unfold cpuIterSamples
    rw [h]

/-- Witness for C10: the empty output has no lines and yields no sample. -/
theorem cpu_no_lines_no_sample_witness : cpuIterSamples "" = [] :=
  (cpu_no_lines_no_sample "").1 rfl

/-- Counterexample to C2 as stated: on a first line whose 9th field is
`1%2`, the source's `.replace("%", "")` removes the interior `%` and
parses 12.0, while the claimed rule — strip a trailing `%` only, then
parse — fails to parse `1%2` and substitutes 0.0. -/
theorem cpu_strip_trailing_rule_refuted :
    cpuSample "a b c d e f g h 1%2" = 12 ∧
    cpuSampleSpecRule "a b c d e f g h 1%2" = 0 := by
  constructor
  · show (parseF64 (removePercent ((splitWS "a b c d e f g h 1%2").getD 8 "0"))).getD 0 = 12
    have h : removePercent ((splitWS "a b c d e f g h 1%2").getD 8 "0") = "12" := by decide
    rw [h]
    have h2 : parseF64 "12" = some 12 := by
      simp +decide [parseF64, takeSign, splitAtFirst, digitsVal]
    rw [h2, Option.getD_some]
  · show (parseF64 (String.mk (stripLastChar '%'
      ((splitWS "a b c d e f g h 1%2").getD 8 "0").toList))).getD 0 = 0
    have h : String.mk (stripLastChar '%'
        ((splitWS "a b c d e f g h 1%2").getD 8 "0").toList) = "1%2" := by decide
    rw [h]
    have h2 : parseF64 "1%2" = none := by
      simp +decide [parseF64, takeSign, splitAtFirst, digitsVal]
    rw [h2, Option.getD_none]

/-- Claim C2 (amended): the CPU extraction takes the 9th whitespace field
of the first line (defaulting to "0" when fewer than 9 fields exist),
removes every `%` character — not only a trailing one — parses the rest
as a float and substitutes 0.0 on any parse failure; it is total, hence
never raises. -/
theorem cpu_field_extraction (line : String) :
    cpuSample line = (parseF64 (removePercent ((splitWS line).getD 8 "0"))).getD 0 ∧
    (parseF64 (removePercent ((splitWS line).getD 8 "0")) = none → cpuSample line = 0) ∧
    ((splitWS line).length ≤ 8 → cpuSample line = 0) := by
  refine ⟨rfl, fun h => ?_, fun h => ?_⟩
  · unfold cpuSample
    rw [h, Option.getD_none]
  · unfold cpuSample
    rw [List.getD_eq_default _ _ h]
    have h2 : parseF64 (removePercent "0") = some 0 := by
      simp +decide [parseF64, removePercent, takeSign, splitAtFirst, digitsVal]
    rw [h2, Option.getD_some]

/-- Witness for (amended) C2: a line with fewer than 9 fields yields 0.0,
and a line whose 9th field does not parse yields 0.0. -/
theorem cpu_field_extraction_witness :
    cpuSample "a b" = 0 ∧ cpuSample "a b c d e f g h xyz" = 0 :=
  ⟨(cpu_field_extraction "a b").2.2 (by decide),
   (cpu_field_extraction "a b c d e f g h xyz").2.1 (by
      have h : removePercent ((splitWS "a b c d e f g h xyz").getD 8 "0") = "xyz" := by
        decide
      rw [h]
      simp +decide [parseF64, takeSign, splitAtFirst, digitsVal])⟩

/-- Counterexample to C5 as stated: the samplers never check the sign of a
parsed value, so a first line whose 9th field is `-5` appends the negative
sample −5.0 to the CPU series. -/
theorem negative_sample_appended :
    cpuIterSamples "a b c d e f g h -5" = [-5] ∧ ¬ (0 : ℚ) ≤ -5 := by
  constructor
  · have hl : rustLines "a b c d e f g h -5" = ["a b c d e f g h -5"] := by decide
    unfold cpuIterSamples
    rw [hl]
    have hf : removePercent ((splitWS "a b c d e f g h -5").getD 8 "0") = "-5" := by decide
    show [(parseF64 (removePercent ((splitWS "a b c d e f g h -5").getD 8 "0"))).getD 0]
        = [-5]
    rw [hf]
    have h2 : parseF64 "-5" = some (-5) := by
      simp +decide [parseF64, takeSign, splitAtFirst, digitsVal]
    rw [h2, Option.getD_some]
  · norm_num

/-- Claim C5 (amended): every value a sampler appends is either the 0.0
substituted on parse failure or exactly the parsed field value; no
non-negativity check is performed, so a sample is negative exactly when
the parsed field is. -/
theorem sample_is_parse_or_zero (line : String) :
    (cpuSample line = 0 ∨
      ∃ q, parseF64 (removePercent ((splitWS line).getD 8 "0")) = some q ∧
        cpuSample line = q) ∧
    (memLineValue line = 0 ∨
      ∃ q, parseF64 ((splitWS line).getD 2 "0") = some q ∧ memLineValue line = q) := by
  constructor
  · cases h : parseF64 (removePercent ((splitWS line).getD 8 "0")) with
    | none => exact Or.inl (by unfold cpuSample; rw [h, Option.getD_none])
    | some q => exact Or.inr ⟨q, rfl, by unfold cpuSample; rw [h, Option.getD_some]⟩
  · cases h : parseF64 ((splitWS line).getD 2 "0") with
    | none => exact Or.inl (by unfold memLineValue; rw [h, Option.getD_none])
    | some q => exact Or.inr ⟨q, rfl, by unfold memLineValue; rw [h, Option.getD_some]⟩

/-- Pushing through a guarded fold is filtering then mapping. -/
theorem foldl_push_eq_filter_map (f : String → ℚ) (p : String → Bool)
    (ls : List String) :
    ∀ acc : List ℚ,
      ls.foldl (fun a line => if p line then a ++ [f line] else a) acc
        = acc ++ (ls.filter p).map f := by
  induction ls with
  | nil => intro acc; simp
  | cons l ls ih =>
    intro acc
    cases h : p l with
    | true => simp [List.filter_cons, h, ih, List.append_assoc]
    | false => simp [List.filter_cons, h, ih]

/-- Claim C3: one memory sample is appended per output line containing
"TOTAL PSS:" — its 3rd whitespace field parsed, 0.0 substituted on parse
failure — and lines without the marker contribute no sample. -/
theorem mem_one_sample_per_marker_line (output line : String) :
    memSamples output = ((rustLines output).filter lineHasMarker).map memLineValue ∧
    (memSamples output).length = ((rustLines output).filter lineHasMarker).length ∧
    (parseF64 ((splitWS line).getD 2 "0") = none → memLineValue line = 0) := by
  have heq : memSamples output
      = ((rustLines output).filter lineHasMarker).map memLineValue := by
    unfold memSamples
    rw [foldl_push_eq_filter_map memLineValue lineHasMarker (rustLines output) []]
    exact List.nil_append _
  refine ⟨heq, ?_, fun hp => ?_⟩
  · rw [heq, List.length_map]
  · unfold memLineValue
    rw [hp, Option.getD_none]

/-- Witness for C3: a marker-free line whose 3rd field does not parse
falls back to 0.0. -/
theorem mem_one_sample_per_marker_line_witness : memLineValue "a b c" = 0 :=
  (mem_one_sample_per_marker_line "" "a b c").2.2 (by decide)

/-- The seed of a `foldl max` never exceeds the result. -/
theorem le_foldl_max : ∀ (xs : List ℚ) (x : ℚ), x ≤ xs.foldl max x := by
  intro xs
  induction xs with
  | nil => intro x; exact le_refl x
  | cons a xs ih =>
    intro x
    rw [List.foldl_cons]
    exact le_trans (le_max_left x a) (ih (max x a))

/-- Every element of the list is bounded by `foldl max`. -/
theorem mem_le_foldl_max : ∀ (xs : List ℚ) (x y : ℚ), y ∈ xs → y ≤ xs.foldl max x := by
  intro xs
  induction xs with
  | nil => intro x y hy; exact absurd hy (List.not_mem_nil y)
  | cons a xs ih =>
    intro x y hy
    rw [List.foldl_cons]
    rcases List.mem_cons.mp hy with rfl | hy
    · exact le_trans (le_max_right x y) (le_foldl_max xs (max x y))
    · exact ih (max x a) y hy

/-- `foldl max` is the seed or one of the elements. -/
theorem foldl_max_mem : ∀ (xs : List ℚ) (x : ℚ),
    xs.foldl max x = x ∨ xs.foldl max x ∈ xs := by
  intro xs
  induction xs with
  | nil => intro x; exact Or.inl rfl
  | cons a xs ih =>
    intro x
    rw [List.foldl_cons]
    rcases ih (max x a) with h | h
    · rcases max_choice x a with hm | hm
      · exact Or.inl (h.trans hm)
      · exact Or.inr (by rw [h, hm]; exact List.mem_cons_self a xs)
    · exact Or.inr (List.mem_cons_of_mem a h)

/-- On a non-empty series, `seriesMax` bounds every sample. -/
theorem seriesMax_is_ub (l : List ℚ) (h : l ≠ []) : ∀ y ∈ l, y ≤ seriesMax l := by
  cases l with
  | nil => exact absurd rfl h
  | cons x xs =>
    intro y hy
    show y ≤ xs.foldl max x
    rcases List.mem_cons.mp hy with rfl | hy
    · exact le_foldl_max xs y
    · exact mem_le_foldl_max xs x y hy

/-- On a non-empty series, `seriesMax` is one of the samples. -/
theorem seriesMax_mem (l : List ℚ) (h : l ≠ []) : seriesMax l ∈ l := by
  cases l with
  | nil => exact absurd rfl h
  | cons x xs =>
    show xs.foldl max x ∈ x :: xs
    rcases foldl_max_mem xs x with h2 | h2
    · rw [h2]; exact List.mem_cons_self x xs
    · exact List.mem_cons_of_mem x h2

/-- `foldl (+)` from a seed is the seed plus the fold from zero. -/
theorem foldl_add_shift : ∀ (l : List ℚ) (a : ℚ),
    l.foldl (· + ·) a = a + l.foldl (· + ·) 0 := by
  intro l
  induction l with
  | nil => intro a; simp
  | cons x xs ih =>
    intro a
    rw [List.foldl_cons, List.foldl_cons, ih (a + x), ih (0 + x)]
    ring

/-- `seriesSum` on a cons. -/
theorem seriesSum_cons (x : ℚ) (xs : List ℚ) :
    seriesSum (x :: xs) = x + seriesSum xs := by
  unfold seriesSum
  rw [List.foldl_cons, foldl_add_shift xs (0 + x)]
  ring

/-- A uniform upper bound on the samples bounds the sum by count · bound. -/
theorem seriesSum_le_card_mul (b : ℚ) :
    ∀ l : List ℚ, (∀ y ∈ l, y ≤ b) → seriesSum l ≤ (l.length : ℚ) * b := by
  intro l
  induction l with
  | nil => intro _; simp [seriesSum]
  | cons x xs ih =>
    intro hb
    rw [seriesSum_cons]
    have h1 : x ≤ b := hb x (List.mem_cons_self x xs)
    have h2 : seriesSum xs ≤ (xs.length : ℚ) * b :=
      ih (fun y hy => hb y (List.mem_cons_of_mem x hy))
    calc x + seriesSum xs ≤ b + (xs.length : ℚ) * b := add_le_add h1 h2
      _ = ((x :: xs).length : ℚ) * b := by
          rw [List.length_cons]
          push_cast
          ring

/-- `fdiv` with a non-zero denominator is the exact finite quotient. -/
theorem fdiv_of_den_ne_zero (a b : ℚ) (hb : b ≠ 0) :
    fdiv a b = FVal.finite (a / b) := by
  unfold fdiv
  rw [if_neg hb]

/-- Claim C4: on a non-empty series the reported mean is sum/count and the
reported max is the largest sample; the memory mean and max are further
divided by 1024 while CPU values pass through unconverted; in particular
mean [10, 20, 30] = 20 with max 30, and memory samples [2048, 4096] give
converted mean 3 and converted max 4. -/
theorem aggregator_mean_and_max (l : List ℚ) (h : l ≠ []) :
    cpuAverageOf l = FVal.finite (seriesSum l / (l.length : ℚ)) ∧
    (∀ y ∈ l, y ≤ cpuMaxOf l) ∧
    cpuMaxOf l ∈ l ∧
    memAverageOf l = FVal.finite (seriesSum l / (l.length : ℚ) / 1024) ∧
    memMaxOf l = seriesMax l / 1024 ∧
    cpuAverageOf [10, 20, 30] = FVal.finite 20 ∧
    cpuMaxOf [(10 : ℚ), 20, 30] = 30 ∧
    memAverageOf [2048, 4096] = FVal.finite 3 ∧
    memMaxOf [(2048 : ℚ), 4096] = 4 := by
  have hlen : ((l.length : ℚ)) ≠ 0 :=
    Nat.cast_ne_zero.mpr (List.length_pos.mpr h).ne'
  refine ⟨?_, seriesMax_is_ub l h, seriesMax_mem l h, ?_, rfl, ?_, ?_, ?_, ?_⟩
  · unfold cpuAverageOf
    rw [fdiv_of_den_ne_zero _ _ hlen]
  · unfold memAverageOf
    rw [fdiv_of_den_ne_zero _ _ (mul_ne_zero hlen (by norm_num)), div_div]
  · unfold cpuAverageOf
    have hsum : seriesSum [(10 : ℚ), 20, 30] = 60 := by
      norm_num [seriesSum]
    rw [hsum, fdiv_of_den_ne_zero _ _ (by norm_num)]
    norm_num
  · show seriesMax [(10 : ℚ), 20, 30] = 30
    norm_num [seriesMax, max_def]
  · unfold memAverageOf
    have hsum : seriesSum [(2048 : ℚ), 4096] = 6144 := by
      norm_num [seriesSum]
    rw [hsum, fdiv_of_den_ne_zero _ _ (by norm_num)]
    norm_num
  · show seriesMax [(2048 : ℚ), 4096] / 1024 = 4
    norm_num [seriesMax, max_def]

/-- Witness for C4: the concrete mean of [10, 20, 30] is 20. -/
theorem aggregator_mean_and_max_witness :
    cpuAverageOf [10, 20, 30] = FVal.finite 20 :=
  (aggregator_mean_and_max [10, 20, 30] (List.cons_ne_nil _ _)).2.2.2.2.2.1

/-- Claim C6: for every non-empty series, the reported mean is a finite
value not exceeding the reported max (for both the unconverted CPU figures
and the 1024-divided memory figures), and on a singleton series the mean
equals the max. -/
theorem max_ge_average (l : List ℚ) (h : l ≠ []) :
    (∃ m, cpuAverageOf l = FVal.finite m ∧ m ≤ cpuMaxOf l) ∧
    (∃ m, memAverageOf l = FVal.finite m ∧ m ≤ memMaxOf l) ∧
    (∀ x : ℚ, l = [x] →
      cpuAverageOf l = FVal.finite (cpuMaxOf l) ∧
      memAverageOf l = FVal.finite (memMaxOf l)) := by
  have hpos : (0 : ℚ) < (l.length : ℚ) :=
    Nat.cast_pos.mpr (List.length_pos.mpr h)
  have hsum : seriesSum l ≤ (l.length : ℚ) * seriesMax l :=
    seriesSum_le_card_mul (seriesMax l) l (seriesMax_is_ub l h)
  have hmean : seriesSum l / (l.length : ℚ) ≤ seriesMax l :=
    (div_le_iff₀ hpos).mpr (by rw [mul_comm]; exact hsum)
  refine ⟨?_, ?_, ?_⟩
  · refine ⟨seriesSum l / (l.length : ℚ), ?_, hmean⟩
    unfold cpuAverageOf
    rw [fdiv_of_den_ne_zero _ _ hpos.ne']
  · refine ⟨seriesSum l / (l.length : ℚ) / 1024, ?_, ?_⟩
    · unfold memAverageOf
      rw [fdiv_of_den_ne_zero _ _ (mul_ne_zero hpos.ne' (by norm_num)), div_div]
    · exact (div_le_div_iff_of_pos_right (by norm_num)).mpr hmean
  · intro x hx
    subst hx
    have hs : seriesSum [x] = x := by simp [seriesSum]
    have hm : seriesMax [x] = x := rfl
    constructor
    · unfold cpuAverageOf cpuMaxOf
      rw [hs, hm, fdiv_of_den_ne_zero _ _ (by simp)]
      simp
    · unfold memAverageOf memMaxOf
      rw [hs, hm, fdiv_of_den_ne_zero _ _ (by simp)]
      simp

/-- Witness for C6: on the singleton series [5], mean and max coincide. -/
theorem max_ge_average_witness :
    cpuAverageOf [5] = FVal.finite (cpuMaxOf [5]) :=
  ((max_ge_average [5] (List.cons_ne_nil _ _)).2.2 5 rfl).1

end CpuReport
